import Mathlib

/-!
Shallow embedding of the core of the video-highlight-generator repository:
`src/gcp_video_processor/video_processor.py`, its caller
`src/gcp_video_processor/main.py`, and the standalone scripts
`src/tests/action_finder.py` and `src/tests/editor_bike.py`.

Timestamps, scores and durations are rationals.  Decoded frames and
dense optical-flow computation are external collaborators (OpenCV), so
frame pairs enter the embedding as their already-computed flow-magnitude
fields, and per-frame sharpness analysis enters as the resulting scored
samples; the segmentation, thresholding and orchestration logic is
translated statement by statement from the Python source.
-/

/-- Constant `MIN_CLIP_DURATION_STEADY` of video_processor.py (line 10). -/
def MIN_CLIP_DURATION_STEADY : ℚ := 1

/-- Constant `MIN_ACTION_CLIP_DURATION` of video_processor.py (line 11). -/
def MIN_ACTION_CLIP_DURATION : ℚ := 2

/-- One iteration of the run-segmentation loop, textually identical in
`_get_steady_clips` (video_processor.py lines 36-44) and
`_get_best_moments` (lines 102-111): state is
`(good_segments, current_start)` and the sample is `(timestamp, score)`.
The activity test is the source's strict `score > threshold`. -/
def runStep (threshold minDuration : ℚ) (st : List (ℚ × ℚ) × Option ℚ)
    (sample : ℚ × ℚ) : List (ℚ × ℚ) × Option ℚ :=
  if threshold < sample.2 then
    match st.2 with
    | none => (st.1, some sample.1)
    | some s => (st.1, some s)
  else
    match st.2 with
    | none => (st.1, none)
    | some s =>
      (if minDuration ≤ sample.1 - s then st.1 ++ [(s, sample.1)] else st.1, none)

/-- The whole scan: `runStep` folded over the scored samples starting from
`good_segments = []`, `current_start = None`. -/
def runScan (threshold minDuration : ℚ) (samples : List (ℚ × ℚ)) :
    List (ℚ × ℚ) × Option ℚ :=
  samples.foldl (runStep threshold minDuration) ([], none)

/-- The interval list produced by the segmentation loop of
`_get_steady_clips` (video_processor.py lines 33-48): after the last
sample a still-open run is simply dropped. -/
def segmentNoTail (threshold minDuration : ℚ) (samples : List (ℚ × ℚ)) :
    List (ℚ × ℚ) :=
  (runScan threshold minDuration samples).1

/-- The interval list produced by the segmentation of `_get_best_moments`
(video_processor.py lines 102-116): after the last sample a still-open run
is closed against the source's total duration and kept under the same
minimum-duration test. -/
def segmentWithTail (threshold minDuration totalDur : ℚ)
    (samples : List (ℚ × ℚ)) : List (ℚ × ℚ) :=
  match runScan threshold minDuration samples with
  | (segs, none) => segs
  | (segs, some s) =>
    if minDuration ≤ totalDur - s then segs ++ [(s, totalDur)] else segs

/-- Linear interpolation at fractional index `h` into a (sorted) list, as
`np.percentile`'s default interpolation computes it. -/
def interpAt (a : List ℚ) (h : ℚ) : ℚ :=
  a.getD (⌊h⌋).toNat 0 +
    (h - ((⌊h⌋).toNat : ℚ)) *
      (a.getD ((⌊h⌋).toNat + 1) (a.getD (⌊h⌋).toNat 0) - a.getD (⌊h⌋).toNat 0)

/-- `np.percentile(xs, q)` with the default linear interpolation, on
rationals: sort ascending, interpolate at index `q/100 * (n-1)`. -/
def percentileNP (xs : List ℚ) (q : ℚ) : ℚ :=
  if xs.insertionSort (· ≤ ·) = [] then 0
  else
    interpAt (xs.insertionSort (· ≤ ·))
      (q / 100 * (((xs.insertionSort (· ≤ ·)).length : ℚ) - 1))

/-- Total length of a list of intervals. -/
def totalDuration (l : List (ℚ × ℚ)) : ℚ := (l.map fun p => p.2 - p.1).sum

/-- `_get_best_moments` (video_processor.py lines 89-122): the source clip
is abstracted to its total duration and the selected subclips are
represented by their intervals.  The threshold is
`np.percentile(scores, percentile_threshold * 100)`. -/
def getBestMoments (clipDuration : ℚ) (actionScores : List (ℚ × ℚ))
    (percentileThreshold : ℚ) : List (ℚ × ℚ) :=
  if actionScores = [] then []
  else
    segmentWithTail
      (percentileNP (actionScores.map Prod.snd) (percentileThreshold * 100))
      MIN_ACTION_CLIP_DURATION clipDuration actionScores

/-- `_get_steady_clips` (video_processor.py lines 20-50): the source clip
is abstracted to its duration, frame rate (`None` when moviepy reports no
fps) and per-frame sharpness samples; the returned subclips are
represented by their intervals, with the whole original clip represented
by `(0, duration)`.  A missing or zero fps skips the analysis and returns
the whole clip. -/
def getSteadyClips (clipDuration : ℚ) (fps : Option ℚ) (blurThreshold : ℚ)
    (sharpnessSamples : List (ℚ × ℚ)) : List (ℚ × ℚ) :=
  match fps with
  | none => [(0, clipDuration)]
  | some f =>
    if f = 0 then [(0, clipDuration)]
    else segmentNoTail blurThreshold MIN_CLIP_DURATION_STEADY sharpnessSamples

/-- `np.mean` over a flow-magnitude matrix. -/
def matMean (m : List (List ℚ)) : ℚ := m.flatten.sum / (m.flatten.length : ℚ)

/-- `_analyze_video_for_action` (video_processor.py lines 54-87): the
decoded frame pairs and the external Farneback optical flow are abstracted
to the per-transition magnitude fields; transition `i` is scored with the
whole-frame mean magnitude `np.mean(magnitude)` at timestamp `(i+1)/fps`.
An empty or one-frame video yields no fields and hence no samples. -/
def analyzeVideoForAction (fps : ℚ) (magnitudeFields : List (List (List ℚ))) :
    List (ℚ × ℚ) :=
  magnitudeFields.enum.map fun p => (((p.1 : ℚ) + 1) / fps, matMean p.2)

/-- The central-region crop of tests/action_finder.py lines 52-56, applied
to a magnitude field: rows `int(h*0.1) .. int(h*0.9)` and columns
`int(w*0.1) .. int(w*0.9)` (the flow of the cropped frames is the cropped
field at this abstraction boundary). -/
def cropCentral (m : List (List ℚ)) : List (List ℚ) :=
  ((m.drop (m.length / 10)).take (9 * m.length / 10 - m.length / 10)).map
    fun row => (row.drop (row.length / 10)).take (9 * row.length / 10 - row.length / 10)

/-- The ROI-percentile action score of tests/action_finder.py lines 52-64:
`np.percentile(magnitude, 95)` over the central crop. -/
def roiPercentileScore (m : List (List ℚ)) : ℚ :=
  percentileNP (cropCentral m).flatten 95

/-- The clip resources `generate_highlight_video` can create: the original
clip, the steady subclips, the concatenated steady video, the best-moment
subclips and the final concatenation. -/
inductive Res where
  | original
  | steadySub (i : ℕ)
  | steadyVideo
  | bestSub (i : ℕ)
  | finalVideo
  deriving DecidableEq

/-- Where an external collaborator can raise an unexpected fault during
`generate_highlight_video`: opening the input, the stability scan, a
concatenation, the action scan, or writing the output file. -/
inductive FaultPoint where
  | atOpen
  | atSteady
  | atConcat
  | atAction
  | atWrite
  deriving DecidableEq

/-- How a call to `generate_highlight_video` ends: a returned boolean, or
an exception propagated to the caller. -/
inductive PipeOutcome where
  | returned (b : Bool)
  | raised
  deriving DecidableEq

/-- Inputs of one `generate_highlight_video` run: the point (if any) where
an external collaborator raises, the input clip's duration and frame rate,
the concatenated steady video's frame rate, the configuration thresholds,
and the externally computed per-frame sharpness samples and per-transition
flow-magnitude fields. -/
structure PipelineEnv where
  fault : Option FaultPoint
  clipDuration : ℚ
  fps : Option ℚ
  steadyFps : ℚ
  blurThreshold : ℚ
  topPercent : ℚ
  sharpnessSamples : List (ℚ × ℚ)
  magnitudeFields : List (List (List ℚ))

/-- Observables of one `generate_highlight_video` run: the outcome, the
clip resources created and the ones closed (in close order), and the
interval list written to the output file, if any. -/
structure PipeResult where
  result : PipeOutcome
  created : List Res
  closed : List Res
  written : Option (List (ℚ × ℚ))
  deriving DecidableEq

/-- The steady intervals the pipeline computes for `env`
(video_processor.py line 139). -/
def steadyOf (env : PipelineEnv) : List (ℚ × ℚ) :=
  getSteadyClips env.clipDuration env.fps env.blurThreshold env.sharpnessSamples

/-- The action scores the pipeline computes for `env`
(video_processor.py line 151). -/
def scoresOf (env : PipelineEnv) : List (ℚ × ℚ) :=
  analyzeVideoForAction env.steadyFps env.magnitudeFields

/-- The best-moment intervals the pipeline computes for `env`
(video_processor.py lines 159-160): `percentile_threshold =
(100 - top_percent) / 100`, over the concatenated steady video whose
duration is the total duration of the steady intervals. -/
def bestOf (env : PipelineEnv) : List (ℚ × ℚ) :=
  getBestMoments (totalDuration (steadyOf env)) (scoresOf env)
    ((100 - env.topPercent) / 100)

/-- `generate_highlight_video` (video_processor.py lines 126-183).  In the
source only the initial `VideoFileClip` open is inside a try/except; every
later statement runs unguarded, so a fault there propagates to the caller
and reaches none of the close calls at the end of the function.  The
`created`/`closed` lists record the clip resources in program order. -/
def generateHighlightVideo (env : PipelineEnv) : PipeResult :=
  if env.fault = some .atOpen then
    { result := .returned false, created := [], closed := [], written := none }
  else if env.fault = some .atSteady then
    { result := .raised, created := [.original], closed := [], written := none }
  else if steadyOf env = [] then
    { result := .returned false, created := [.original], closed := [.original],
      written := none }
  else if env.fault = some .atConcat then
    { result := .raised,
      created := .original :: (List.range (steadyOf env).length).map Res.steadySub,
      closed := [], written := none }
  else if env.fault = some .atAction then
    { result := .raised,
      created := .original :: (List.range (steadyOf env).length).map Res.steadySub
        ++ [.steadyVideo],
      closed := [], written := none }
  else if scoresOf env = [] then
    { result := .returned false,
      created := .original :: (List.range (steadyOf env).length).map Res.steadySub
        ++ [.steadyVideo],
      closed := [.steadyVideo, .original], written := none }
  else if bestOf env = [] then
    { result := .returned false,
      created := .original :: (List.range (steadyOf env).length).map Res.steadySub
        ++ [.steadyVideo],
      closed := .steadyVideo :: .original ::
        (List.range (steadyOf env).length).map Res.steadySub,
      written := none }
  else if env.fault = some .atWrite then
    { result := .raised,
      created := .original :: (List.range (steadyOf env).length).map Res.steadySub
        ++ [.steadyVideo] ++ (List.range (bestOf env).length).map Res.bestSub
        ++ [.finalVideo],
      closed := [], written := none }
  else
    { result := .returned true,
      created := .original :: (List.range (steadyOf env).length).map Res.steadySub
        ++ [.steadyVideo] ++ (List.range (bestOf env).length).map Res.bestSub
        ++ [.finalVideo],
      closed := .finalVideo :: (List.range (bestOf env).length).map Res.bestSub
        ++ [.steadyVideo, .original]
        ++ (List.range (steadyOf env).length).map Res.steadySub,
      written := some (bestOf env) }

/-- The parameter names of `generate_highlight_video`
(video_processor.py line 126). -/
def generateHighlightVideoParams : List String :=
  ["input_path", "output_path", "blur_threshold", "top_percent"]

/-- The keyword arguments `process_video_from_gcs` passes on the
repository's only call to `generate_highlight_video`
(main.py lines 61-67). -/
def processVideoFromGcsKwargs : List String :=
  ["input_path", "output_path", "steady_output_path", "blur_threshold",
   "top_percent"]

/-- Python keyword binding: a call whose keyword arguments are `kwargs`
binds against parameter list `params` (rather than raising `TypeError`
before the body runs) iff every keyword names a parameter. -/
def kwargsBind (params kwargs : List String) : Bool :=
  kwargs.all fun k => params.contains k


/-- The trailing-close step of `_get_best_moments` (video_processor.py
lines 113-116) in isolation: a run still open at state `cur` is closed
against the total duration `D` and kept iff it meets the floor. -/
def tailClose (minD D : ℚ) (cur : Option ℚ) : List (ℚ × ℚ) :=
  match cur with
  | none => []
  | some s => if minD ≤ D - s then [(s, D)] else []

/-- Invariant of the segmentation scan used to prove that returned
intervals only cover above-threshold samples: over the processed prefix
`pre`, every closed segment contains only active samples, segment ends are
processed timestamps, and an open run start is a processed timestamp from
which every later processed sample is active. -/
def scanInv (thr : ℚ) (pre : List (ℚ × ℚ)) (st : List (ℚ × ℚ) × Option ℚ) : Prop :=
  (∀ p ∈ st.1, ∀ q ∈ pre, p.1 ≤ q.1 → q.1 < p.2 → thr < q.2) ∧
  (∀ p ∈ st.1, ∃ q ∈ pre, q.1 = p.2) ∧
  (∀ s, st.2 = some s → ((∃ q ∈ pre, q.1 = s) ∧ ∀ q ∈ pre, s ≤ q.1 → thr < q.2))

/-- The spec's Scenario A sample sequence: 10 samples at 1 fps with scores
`[10,70,80,70,10,10,70,80,70,10]`. -/
def scenarioA : List (ℚ × ℚ) :=
  [(0, 10), (1, 70), (2, 80), (3, 70), (4, 10), (5, 10), (6, 70), (7, 80),
    (8, 70), (9, 10)]

/-- Invariant of the segmentation scan used to prove ordering: the closed
segments are chained (each end at most the next start, starts strictly
increasing), every segment is nonempty in time, segment ends are processed
timestamps, and an open run start is a processed timestamp bounding all
closed segment ends. -/
def orderInv (pre : List (ℚ × ℚ)) (st : List (ℚ × ℚ) × Option ℚ) : Prop :=
  List.Chain' (fun p q => p.2 ≤ q.1) st.1 ∧
  List.Chain' (fun p q => p.1 < q.1) st.1 ∧
  (∀ p ∈ st.1, p.1 < p.2) ∧
  (∀ p ∈ st.1, ∃ q ∈ pre, q.1 = p.2) ∧
  (∀ s, st.2 = some s → ((∃ q ∈ pre, q.1 = s) ∧ ∀ p ∈ st.1, p.2 ≤ s))

/-- The duration a still-open run at state `cur` would contribute if the
scan stopped and the trailing close ran at time `T`. -/
def pot (minD : ℚ) (cur : Option ℚ) (T : ℚ) : ℚ :=
  match cur with
  | none => 0
  | some s => if minD ≤ T - s then T - s else 0

/-- Invariant comparing the segmentation scan at a higher threshold
(`stHi`) with the scan of the same samples at a lower threshold (`stLo`):
whenever the high-threshold run is open the low-threshold run is open at
least as early, open starts are processed timestamps, and closing both
scans at any time `T` past the processed prefix gives the low-threshold
scan at least as much total duration. -/
def monoInv (minD : ℚ) (pre : List (ℚ × ℚ))
    (stHi stLo : List (ℚ × ℚ) × Option ℚ) : Prop :=
  (∀ s1, stHi.2 = some s1 → ∃ s2, stLo.2 = some s2 ∧ s2 ≤ s1) ∧
  (∀ s, stHi.2 = some s → ∃ q ∈ pre, q.1 = s) ∧
  (∀ s, stLo.2 = some s → ∃ q ∈ pre, q.1 = s) ∧
  (∀ T, (∀ q ∈ pre, q.1 ≤ T) →
    totalDuration stHi.1 + pot minD stHi.2 T ≤
      totalDuration stLo.1 + pot minD stLo.2 T)

/-- Action-score sequence exhibiting run merging: scores
`[90,90,90,50,90,90,90,10,10,10]` at 1 fps.  At `top_percent = 60` the
derived threshold is 74 and two runs qualify; at `top_percent = 70` the
threshold drops to 38, the middle sample becomes active and the two runs
merge into one. -/
def scoresC8 : List (ℚ × ℚ) :=
  [(1, 90), (2, 90), (3, 90), (4, 50), (5, 90), (6, 90), (7, 90), (8, 10),
    (9, 10), (10, 10)]

/-- Magnitude field that is zero everywhere except the bottom-right pixel,
which lies outside the central crop of a 5x5 frame: whole-frame mean 4,
ROI 95th percentile 0. -/
def fieldC2 : List (List ℚ) :=
  [[0, 0, 0, 0, 0], [0, 0, 0, 0, 0], [0, 0, 0, 0, 0], [0, 0, 0, 0, 0],
    [0, 0, 0, 0, 100]]

/-- Environment whose action-analysis collaborator raises: the steady stage
finds one interval, then the unguarded `_analyze_video_for_action` call
faults. -/
def envFaultAction : PipelineEnv :=
  ⟨some .atAction, 10, some 1, 1, 50, 20, [(0, 100), (1, 100), (2, 10)], []⟩

/-- Fault-free environment on which every pipeline stage succeeds: ten
sharp frames then a blurry one give the steady interval `(0, 10)`, and the
motion fields give one action run `(2, 7)` above the 20th-percentile
threshold (`top_percent = 80`). -/
def envSuccess : PipelineEnv :=
  ⟨none, 11, some 1, 1, 50, 80,
    [(0, 100), (1, 100), (2, 100), (3, 100), (4, 100), (5, 100), (6, 100),
      (7, 100), (8, 100), (9, 100), (10, 10)],
    [[[0]], [[50]], [[50]], [[50]], [[50]], [[50]], [[0]], [[0]], [[0]]]⟩

/-- Fault-free environment whose steady stage finds one interval but whose
steady video yields no frame transitions, hence no action scores. -/
def envNoScores : PipelineEnv :=
  ⟨none, 10, some 1, 1, 50, 20, [(0, 100), (1, 100), (2, 10)], []⟩

/-- Fault-free environment whose source reports no frame rate. -/
def envFpsNone : PipelineEnv :=
  ⟨none, 7, none, 1, 50, 20, [], []⟩

theorem tailClose_none (minD D : ℚ) : tailClose minD D none = [] := rfl

theorem tailClose_some (minD D s : ℚ) :
    tailClose minD D (some s) = if minD ≤ D - s then [(s, D)] else [] := rfl

theorem segmentWithTail_eq (thr minD D : ℚ) (samples : List (ℚ × ℚ)) :
    segmentWithTail thr minD D samples =
      segmentNoTail thr minD samples ++
        tailClose minD D (runScan thr minD samples).2 := by
  unfold segmentWithTail segmentNoTail tailClose
  rcases h : runScan thr minD samples with ⟨segs, cur⟩
  cases cur with
  | none => simp
  | some s => by_cases hd : minD ≤ D - s <;> simp [hd]

theorem mem_segmentWithTail_of_noTail (thr minD D : ℚ) (samples : List (ℚ × ℚ))
    (p : ℚ × ℚ) (hp : p ∈ segmentNoTail thr minD samples) :
    p ∈ segmentWithTail thr minD D samples := by
  rw [segmentWithTail_eq]
  exact List.mem_append_left _ hp

/-- **C1** (counterexample): on the sample sequence `[(0,100),(1,100)]` with
threshold 50 and minimum duration 1, the last sample is above threshold and
the open run closed against a total duration of 2 passes the floor, yet the
Stability Filter Stage's segmentation (`_get_steady_clips`) drops it and
returns no interval, while the Action Scoring Stage's segmentation
(`_get_best_moments`) keeps `(0, 2)` — so the two stages do not run the
same algorithm on trailing runs, contrary to the claim. -/
theorem c1_counterexample :
    segmentNoTail 50 1 [(0, 100), (1, 100)] = [] ∧
    segmentWithTail 50 1 2 [(0, 100), (1, 100)] = [(0, 2)] := by
  constructor <;> norm_num [segmentNoTail, segmentWithTail, runScan, runStep]

/-- **C1** (amended): the two pipeline stages share the identical
mid-stream run-segmentation scan, but only the Action Scoring Stage's
segmentation closes a run still open after the last sample against the
source's total duration (keeping it under the minimum-duration floor); the
Stability Filter Stage's segmentation discards such a trailing run.  The
action-stage output is exactly the steady-stage output plus this optional
trailing interval. -/
theorem c1_amended_trailing_close_only_in_action_stage
    (thr minD D : ℚ) (samples : List (ℚ × ℚ)) :
    segmentWithTail thr minD D samples =
      segmentNoTail thr minD samples ++
        tailClose minD D (runScan thr minD samples).2 :=
  segmentWithTail_eq thr minD D samples

/-- **C6**: in the shared segmentation step of both stages the activity
test is strict: a sample whose score equals the threshold exactly does not
start a run (the state `(segs, none)` is unchanged) and does not extend an
open one (from any state the resulting `current_start` is `none`). -/
theorem c6_sample_at_threshold_not_active (threshold minDuration t : ℚ)
    (segs : List (ℚ × ℚ)) (cur : Option ℚ) :
    runStep threshold minDuration (segs, none) (t, threshold) = (segs, none) ∧
    (runStep threshold minDuration (segs, cur) (t, threshold)).2 = none := by
  constructor
  · simp [runStep]
  · cases cur <;> simp [runStep]

/-- **C10**: `generate_highlight_video` accepts exactly the parameters
`input_path`, `output_path`, `blur_threshold`, `top_percent`; any call with
a `steady_output_path` keyword — in particular the one call
`process_video_from_gcs` makes — fails Python keyword binding, i.e. raises
`TypeError` before the function body (and hence any video processing)
runs, so the steady-only secondary artifact is never produced. -/
theorem c10_steady_output_path_kwarg_rejected (kwargs : List String)
    (h : "steady_output_path" ∈ kwargs) :
    kwargsBind generateHighlightVideoParams kwargs = false ∧
    "steady_output_path" ∈ processVideoFromGcsKwargs ∧
    kwargsBind generateHighlightVideoParams processVideoFromGcsKwargs = false := by
  refine ⟨?_, by decide, by decide⟩
  apply List.all_eq_false.mpr
  exact ⟨"steady_output_path", h, by decide⟩

/-- Witness for the C10 theorem at the repository's actual call site. -/
theorem c10_steady_output_path_kwarg_rejected_witness :
    kwargsBind generateHighlightVideoParams processVideoFromGcsKwargs = false ∧
    "steady_output_path" ∈ processVideoFromGcsKwargs ∧
    kwargsBind generateHighlightVideoParams processVideoFromGcsKwargs = false :=
  c10_steady_output_path_kwarg_rejected processVideoFromGcsKwargs (by decide)

theorem runStep_active (thr minD t x : ℚ) (st : List (ℚ × ℚ) × Option ℚ)
    (hx : thr < x) :
    runStep thr minD st (t, x) = (st.1, some (st.2.getD t)) := by
  cases hc : st.2 <;> simp [runStep, hx, hc]

theorem runStep_inactive_none (thr minD t x : ℚ) (st : List (ℚ × ℚ) × Option ℚ)
    (hx : ¬ thr < x) (hc : st.2 = none) :
    runStep thr minD st (t, x) = (st.1, none) := by
  simp [runStep, hx, hc]

theorem runStep_inactive_some (thr minD t x s : ℚ) (st : List (ℚ × ℚ) × Option ℚ)
    (hx : ¬ thr < x) (hc : st.2 = some s) :
    runStep thr minD st (t, x) =
      (if minD ≤ t - s then st.1 ++ [(s, t)] else st.1, none) := by
  simp [runStep, hx, hc]

theorem fold_inv_pre {σ : Type} (step : σ → (ℚ × ℚ) → σ)
    (P : List (ℚ × ℚ) → σ → Prop)
    (hstep : ∀ pre t x st, (∀ q ∈ pre, q.1 < t) → P pre st →
      P (pre ++ [(t, x)]) (step st (t, x))) :
    ∀ (suffix pre : List (ℚ × ℚ)) (st : σ),
      List.Pairwise (fun a b => a.1 < b.1) (pre ++ suffix) → P pre st →
      P (pre ++ suffix) (suffix.foldl step st) := by
  intro suffix
  induction suffix with
  | nil => intro pre st _ h; simpa using h
  | cons a l ih =>
    intro pre st hpair h
    have h1 : ∀ q ∈ pre, q.1 < a.1 := fun q hq =>
      (List.pairwise_append.mp hpair).2.2 q hq a (List.mem_cons_self a l)
    have h2 : P (pre ++ [a]) (step st a) := hstep pre a.1 a.2 st h1 h
    have hp' : List.Pairwise (fun p q => p.1 < q.1) ((pre ++ [a]) ++ l) := by
      simpa [List.append_assoc] using hpair
    have h3 := ih (pre ++ [a]) (step st a) hp' h2
    simpa [List.append_assoc] using h3

theorem foldl_runStep_duration (thr minD : ℚ) :
    ∀ (samples : List (ℚ × ℚ)) (st : List (ℚ × ℚ) × Option ℚ),
      (∀ p ∈ st.1, minD ≤ p.2 - p.1) →
      ∀ p ∈ (samples.foldl (runStep thr minD) st).1, minD ≤ p.2 - p.1 := by
  intro samples
  induction samples with
  | nil => intro st h; simpa using h
  | cons a l ih =>
    intro st h
    refine ih (runStep thr minD st a) ?_
    intro p hp
    by_cases hx : thr < a.2
    · rw [show a = (a.1, a.2) from rfl, runStep_active thr minD a.1 a.2 st hx] at hp
      exact h p hp
    · cases hc : st.2 with
      | none =>
        rw [show a = (a.1, a.2) from rfl,
          runStep_inactive_none thr minD a.1 a.2 st hx hc] at hp
        exact h p hp
      | some s =>
        rw [show a = (a.1, a.2) from rfl,
          runStep_inactive_some thr minD a.1 a.2 s st hx hc] at hp
        by_cases hd : minD ≤ a.1 - s
        · rw [if_pos hd] at hp
          rcases List.mem_append.mp hp with h1 | h1
          · exact h p h1
          · have hps : p = (s, a.1) := by simpa using h1
            subst hps; simpa using hd
        · rw [if_neg hd] at hp
          exact h p hp

theorem segmentNoTail_duration (thr minD : ℚ) (samples : List (ℚ × ℚ)) :
    ∀ p ∈ segmentNoTail thr minD samples, minD ≤ p.2 - p.1 := by
  intro p hp
  exact foldl_runStep_duration thr minD samples ([], none) (by simp) p hp

theorem segmentWithTail_duration (thr minD D : ℚ) (samples : List (ℚ × ℚ)) :
    ∀ p ∈ segmentWithTail thr minD D samples, minD ≤ p.2 - p.1 := by
  intro p hp
  rw [segmentWithTail_eq] at hp
  rcases List.mem_append.mp hp with h1 | h1
  · exact segmentNoTail_duration thr minD samples p h1
  · rcases hc : (runScan thr minD samples).2 with _ | s <;> rw [hc] at h1
    · rw [tailClose_none] at h1
      simp at h1
    · rw [tailClose_some] at h1
      by_cases hd : minD ≤ D - s
      · rw [if_pos hd] at h1
        have hps : p = (s, D) := by simpa using h1
        subst hps; simpa using hd
      · rw [if_neg hd] at h1; simp at h1

theorem scanInv_step (thr minD : ℚ) (pre : List (ℚ × ℚ)) (t x : ℚ)
    (st : List (ℚ × ℚ) × Option ℚ)
    (hlt : ∀ q ∈ pre, q.1 < t) (h : scanInv thr pre st) :
    scanInv thr (pre ++ [(t, x)]) (runStep thr minD st (t, x)) := by
  obtain ⟨h1, h2, h3⟩ := h
  have hend : ∀ p ∈ st.1, p.2 < t := by
    intro p hp
    obtain ⟨r, hr, hre⟩ := h2 p hp
    rw [← hre]
    exact hlt r hr
  have hA : ∀ p ∈ st.1, ∀ q ∈ pre ++ [(t, x)], p.1 ≤ q.1 → q.1 < p.2 → thr < q.2 := by
    intro p hp q hq hpq hqp
    rcases List.mem_append.mp hq with hq | hq
    · exact h1 p hp q hq hpq hqp
    · have hqe : q = (t, x) := by simpa using hq
      subst hqe
      exact absurd hqp (not_lt.mpr (le_of_lt (hend p hp)))
  have hB : ∀ p ∈ st.1, ∃ q ∈ pre ++ [(t, x)], q.1 = p.2 := by
    intro p hp
    obtain ⟨r, hr, hre⟩ := h2 p hp
    exact ⟨r, List.mem_append_left _ hr, hre⟩
  by_cases hx : thr < x
  · rw [runStep_active thr minD t x st hx]
    refine ⟨hA, hB, ?_⟩
    intro s hs
    cases hc : st.2 with
    | none =>
      rw [hc] at hs
      simp at hs
      subst hs
      constructor
      · exact ⟨(t, x), List.mem_append_right _ (by simp), rfl⟩
      · intro q hq hle
        rcases List.mem_append.mp hq with hq | hq
        · exact absurd hle (not_le.mpr (hlt q hq))
        · have hqe : q = (t, x) := by simpa using hq
          subst hqe
          exact hx
    | some s0 =>
      rw [hc] at hs
      simp at hs
      subst hs
      obtain ⟨⟨r, hr, hre⟩, hact⟩ := h3 s0 hc
      constructor
      · exact ⟨r, List.mem_append_left _ hr, hre⟩
      · intro q hq hle
        rcases List.mem_append.mp hq with hq | hq
        · exact hact q hq hle
        · have hqe : q = (t, x) := by simpa using hq
          subst hqe
          exact hx
  · cases hc : st.2 with
    | none =>
      rw [runStep_inactive_none thr minD t x st hx hc]
      exact ⟨hA, hB, by simp⟩
    | some s0 =>
      rw [runStep_inactive_some thr minD t x s0 st hx hc]
      obtain ⟨⟨r, hr, hre⟩, hact⟩ := h3 s0 hc
      by_cases hd : minD ≤ t - s0
      · rw [if_pos hd]
        refine ⟨?_, ?_, by simp⟩
        · intro p hp q hq hpq hqp
          rcases List.mem_append.mp hp with hp | hp
          · exact hA p hp q hq hpq hqp
          · have hpe : p = (s0, t) := by simpa using hp
            subst hpe
            rcases List.mem_append.mp hq with hq | hq
            · exact hact q hq hpq
            · have hqe : q = (t, x) := by simpa using hq
              subst hqe
              exact absurd hqp (lt_irrefl t)
        · intro p hp
          rcases List.mem_append.mp hp with hp | hp
          · exact hB p hp
          · have hpe : p = (s0, t) := by simpa using hp
            subst hpe
            exact ⟨(t, x), List.mem_append_right _ (by simp), rfl⟩
      · rw [if_neg hd]
        exact ⟨hA, hB, by simp⟩

theorem runScan_scanInv (thr minD : ℚ) (samples : List (ℚ × ℚ))
    (hs : List.Pairwise (fun a b => a.1 < b.1) samples) :
    scanInv thr samples (runScan thr minD samples) := by
  have h := fold_inv_pre (runStep thr minD) (scanInv thr)
    (fun pre t x st hlt hinv => scanInv_step thr minD pre t x st hlt hinv)
    samples [] ([], none) (by simpa using hs) ⟨by simp, by simp, by simp⟩
  simpa using h

theorem scenarioA_segments : segmentWithTail 60 2 10 scenarioA = [(1, 4), (6, 9)] := by
  norm_num [scenarioA, segmentWithTail, runScan, runStep]

/-- **C5**: for any scored-sample sequence (with the data model's strictly
increasing timestamps), threshold, minimum-duration floor and total
duration given to either stage's run segmenter, every returned interval
`p` satisfies `p.2 - p.1 ≥ minDuration`, and contains no sample at or
below the threshold except the closing one: every sample `q` with
`p.1 ≤ q.1 < p.2` has `q.2 > threshold`. -/
theorem c5_interval_duration_and_active_subset (thr minD D : ℚ)
    (samples : List (ℚ × ℚ)) (p : ℚ × ℚ)
    (hsorted : List.Pairwise (fun a b => a.1 < b.1) samples)
    (hp : p ∈ segmentWithTail thr minD D samples ∨
      p ∈ segmentNoTail thr minD samples) :
    minD ≤ p.2 - p.1 ∧ ∀ q ∈ samples, p.1 ≤ q.1 → q.1 < p.2 → thr < q.2 := by
  have hp' : p ∈ segmentWithTail thr minD D samples :=
    hp.elim id (mem_segmentWithTail_of_noTail thr minD D samples p)
  refine ⟨segmentWithTail_duration thr minD D samples p hp', ?_⟩
  obtain ⟨h1, h2, h3⟩ := runScan_scanInv thr minD samples hsorted
  rw [segmentWithTail_eq] at hp'
  rcases List.mem_append.mp hp' with hmem | hmem
  · exact fun q hq hpq hqp => h1 p hmem q hq hpq hqp
  · rcases hc : (runScan thr minD samples).2 with _ | s <;> rw [hc] at hmem
    · rw [tailClose_none] at hmem
      simp at hmem
    · rw [tailClose_some] at hmem
      by_cases hd : minD ≤ D - s
      · rw [if_pos hd] at hmem
        have hpe : p = (s, D) := by simpa using hmem
        subst hpe
        intro q hq hpq _
        exact (h3 s hc).2 q hq hpq
      · rw [if_neg hd] at hmem
        simp at hmem

/-- Witness for the C5 theorem on the spec's Scenario A: the interval
`(1, 4)` returned at threshold 60 with minimum duration 2 and total
duration 10 has length ≥ 2 and covers only above-threshold samples. -/
theorem c5_interval_duration_and_active_subset_witness :
    (2 : ℚ) ≤ 4 - 1 ∧
      ∀ q ∈ scenarioA, (1 : ℚ) ≤ q.1 → q.1 < 4 → (60 : ℚ) < q.2 :=
  c5_interval_duration_and_active_subset 60 2 10 scenarioA (1, 4)
    (by decide) (Or.inl (by rw [scenarioA_segments]; simp))

theorem mem_of_getLast_opt {α : Type} {l : List α} {a : α} (h : a ∈ l.getLast?) :
    a ∈ l := by
  rcases List.mem_getLast?_eq_getLast h with ⟨hne, rfl⟩
  exact List.getLast_mem hne

theorem chains_append_interval (segs : List (ℚ × ℚ)) (s e : ℚ)
    (hc1 : List.Chain' (fun p q => p.2 ≤ q.1) segs)
    (hc2 : List.Chain' (fun p q => p.1 < q.1) segs)
    (h3 : ∀ p ∈ segs, p.1 < p.2)
    (hall : ∀ p ∈ segs, p.2 ≤ s) :
    List.Chain' (fun p q => p.2 ≤ q.1) (segs ++ [(s, e)]) ∧
    List.Chain' (fun p q => p.1 < q.1) (segs ++ [(s, e)]) := by
  constructor
  · refine List.Chain'.append hc1 (by simp) ?_
    intro p hp y hy
    have hpm := mem_of_getLast_opt hp
    have hym : (s, e) = y := by simpa using hy
    subst hym
    exact hall p hpm
  · refine List.Chain'.append hc2 (by simp) ?_
    intro p hp y hy
    have hpm := mem_of_getLast_opt hp
    have hym : (s, e) = y := by simpa using hy
    subst hym
    exact lt_of_lt_of_le (h3 p hpm) (hall p hpm)

theorem orderInv_step (thr minD : ℚ) (pre : List (ℚ × ℚ)) (t x : ℚ)
    (st : List (ℚ × ℚ) × Option ℚ)
    (hlt : ∀ q ∈ pre, q.1 < t) (h : orderInv pre st) :
    orderInv (pre ++ [(t, x)]) (runStep thr minD st (t, x)) := by
  obtain ⟨h1, h2, h3, h4, h5⟩ := h
  have hend : ∀ p ∈ st.1, p.2 < t := by
    intro p hp
    obtain ⟨r, hr, hre⟩ := h4 p hp
    rw [← hre]
    exact hlt r hr
  have h4' : ∀ p ∈ st.1, ∃ q ∈ pre ++ [(t, x)], q.1 = p.2 := by
    intro p hp
    obtain ⟨r, hr, hre⟩ := h4 p hp
    exact ⟨r, List.mem_append_left _ hr, hre⟩
  by_cases hx : thr < x
  · rw [runStep_active thr minD t x st hx]
    refine ⟨h1, h2, h3, h4', ?_⟩
    intro s hs
    cases hc : st.2 with
    | none =>
      rw [hc] at hs
      simp at hs
      subst hs
      exact ⟨⟨(t, x), List.mem_append_right _ (by simp), rfl⟩,
        fun p hp => le_of_lt (hend p hp)⟩
    | some s0 =>
      rw [hc] at hs
      simp at hs
      subst hs
      obtain ⟨⟨r, hr, hre⟩, hall⟩ := h5 s0 hc
      exact ⟨⟨r, List.mem_append_left _ hr, hre⟩, hall⟩
  · cases hc : st.2 with
    | none =>
      rw [runStep_inactive_none thr minD t x st hx hc]
      exact ⟨h1, h2, h3, h4', by simp⟩
    | some s0 =>
      rw [runStep_inactive_some thr minD t x s0 st hx hc]
      obtain ⟨⟨r, hr, hre⟩, hall⟩ := h5 s0 hc
      by_cases hd : minD ≤ t - s0
      · rw [if_pos hd]
        have hs0t : s0 < t := by
          rw [← hre]
          exact hlt r hr
        obtain ⟨hch1, hch2⟩ := chains_append_interval st.1 s0 t h1 h2 h3 hall
        refine ⟨hch1, hch2, ?_, ?_, by simp⟩
        · intro p hp
          rcases List.mem_append.mp hp with hp | hp
          · exact h3 p hp
          · have hpe : p = (s0, t) := by simpa using hp
            subst hpe
            exact hs0t
        · intro p hp
          rcases List.mem_append.mp hp with hp | hp
          · exact h4' p hp
          · have hpe : p = (s0, t) := by simpa using hp
            subst hpe
            exact ⟨(t, x), List.mem_append_right _ (by simp), rfl⟩
      · rw [if_neg hd]
        exact ⟨h1, h2, h3, h4', by simp⟩

theorem runScan_orderInv (thr minD : ℚ) (samples : List (ℚ × ℚ))
    (hs : List.Pairwise (fun a b => a.1 < b.1) samples) :
    orderInv samples (runScan thr minD samples) := by
  have h := fold_inv_pre (runStep thr minD) orderInv
    (fun pre t x st hlt hinv => orderInv_step thr minD pre t x st hlt hinv)
    samples [] ([], none) (by simpa using hs)
    ⟨by simp, by simp, by simp, by simp, by simp⟩
  simpa using h

/-- **C7**: for every scored-sample sequence with strictly increasing
timestamps, the run segmenter's output (as produced for the Action Scoring
Stage by `_get_best_moments`, any threshold, floor and total duration) is
ordered strictly by start time and non-overlapping: every adjacent pair
satisfies `interval[i].end ≤ interval[i+1].start`. -/
theorem c7_segments_ordered_nonoverlapping (thr minD D : ℚ)
    (samples : List (ℚ × ℚ))
    (hsorted : List.Pairwise (fun a b => a.1 < b.1) samples) :
    List.Chain' (fun p q => p.2 ≤ q.1) (segmentWithTail thr minD D samples) ∧
    List.Chain' (fun p q => p.1 < q.1) (segmentWithTail thr minD D samples) := by
  obtain ⟨h1, h2, h3, h4, h5⟩ := runScan_orderInv thr minD samples hsorted
  rw [segmentWithTail_eq]
  rcases hc : (runScan thr minD samples).2 with _ | s
  · rw [tailClose_none, List.append_nil]
    exact ⟨h1, h2⟩
  · obtain ⟨⟨r, hr, hre⟩, hall⟩ := h5 s hc
    rw [tailClose_some]
    by_cases hd : minD ≤ D - s
    · rw [if_pos hd]
      exact chains_append_interval _ s D h1 h2 h3 hall
    · rw [if_neg hd, List.append_nil]
      exact ⟨h1, h2⟩

/-- Witness for the C7 theorem on the spec's Scenario A. -/
theorem c7_segments_ordered_nonoverlapping_witness :
    List.Chain' (fun p q => p.2 ≤ q.1) (segmentWithTail 60 2 10 scenarioA) ∧
    List.Chain' (fun p q => p.1 < q.1) (segmentWithTail 60 2 10 scenarioA) :=
  c7_segments_ordered_nonoverlapping 60 2 10 scenarioA (by decide)

theorem pot_none (minD T : ℚ) : pot minD none T = 0 := rfl

theorem pot_some (minD s T : ℚ) :
    pot minD (some s) T = if minD ≤ T - s then T - s else 0 := rfl

theorem pot_nonneg (minD s T : ℚ) (h : s ≤ T) : 0 ≤ pot minD (some s) T := by
  rw [pot_some]
  split <;> linarith

theorem pot_le_sub (minD s T : ℚ) (h : s ≤ T) : pot minD (some s) T ≤ T - s := by
  rw [pot_some]
  split <;> linarith

theorem pot_mono_T (minD s t T : ℚ) (hs : s ≤ t) (h : t ≤ T) :
    pot minD (some s) t ≤ pot minD (some s) T := by
  rw [pot_some, pot_some]
  by_cases h1 : minD ≤ t - s
  · rw [if_pos h1, if_pos (by linarith)]
    linarith
  · rw [if_neg h1]
    by_cases h2 : minD ≤ T - s
    · rw [if_pos h2]; linarith
    · rw [if_neg h2]

theorem totalDuration_append (l : List (ℚ × ℚ)) (p : ℚ × ℚ) :
    totalDuration (l ++ [p]) = totalDuration l + (p.2 - p.1) := by
  simp [totalDuration]

theorem foldl_pair {σ₁ σ₂ : Type} (f : σ₁ → (ℚ × ℚ) → σ₁) (g : σ₂ → (ℚ × ℚ) → σ₂) :
    ∀ (l : List (ℚ × ℚ)) (a : σ₁) (b : σ₂),
      l.foldl (fun st p => (f st.1 p, g st.2 p)) (a, b) = (l.foldl f a, l.foldl g b) := by
  intro l
  induction l with
  | nil => intro a b; rfl
  | cons x xs ih => intro a b; exact ih (f a x) (g b x)

theorem totalDuration_segmentWithTail (thr minD D : ℚ) (samples : List (ℚ × ℚ)) :
    totalDuration (segmentWithTail thr minD D samples) =
      totalDuration (runScan thr minD samples).1 +
        pot minD (runScan thr minD samples).2 D := by
  rw [segmentWithTail_eq]
  rcases hc : (runScan thr minD samples).2 with _ | s
  · rw [tailClose_none, pot_none, List.append_nil]
    show totalDuration (runScan thr minD samples).1 = _
    ring
  · rw [tailClose_some, pot_some]
    by_cases hd : minD ≤ D - s
    · rw [if_pos hd, if_pos hd, totalDuration_append]
      rfl
    · rw [if_neg hd, if_neg hd, List.append_nil]
      show totalDuration (runScan thr minD samples).1 = _
      ring

theorem monoInv_step (thrHi thrLo minD : ℚ) (hth : thrLo ≤ thrHi)
    (pre : List (ℚ × ℚ)) (t x : ℚ)
    (stHi stLo : List (ℚ × ℚ) × Option ℚ)
    (hlt : ∀ q ∈ pre, q.1 < t) (h : monoInv minD pre stHi stLo) :
    monoInv minD (pre ++ [(t, x)])
      (runStep thrHi minD stHi (t, x)) (runStep thrLo minD stLo (t, x)) := by
  obtain ⟨halign, hm1, hm2, hmain⟩ := h
  have hpre_le_t : ∀ q ∈ pre, q.1 ≤ t := fun q hq => le_of_lt (hlt q hq)
  have hpre' : ∀ T, (∀ q ∈ pre ++ [(t, x)], q.1 ≤ T) → (∀ q ∈ pre, q.1 ≤ T) :=
    fun T hT q hq => hT q (List.mem_append_left _ hq)
  have ht_le : ∀ T, (∀ q ∈ pre ++ [(t, x)], q.1 ≤ T) → t ≤ T :=
    fun T hT => hT (t, x) (List.mem_append_right _ (by simp))
  by_cases hx2 : thrLo < x
  · by_cases hx1 : thrHi < x
    · -- both thresholds active
      rw [runStep_active thrHi minD t x stHi hx1,
        runStep_active thrLo minD t x stLo hx2]
      cases hc1 : stHi.2 with
      | some s1 =>
        obtain ⟨s2, hc2, hs21⟩ := halign s1 hc1
        rw [hc2]
        dsimp only [monoInv, Option.getD_some]
        obtain ⟨q1, hq1, hq1e⟩ := hm1 s1 hc1
        obtain ⟨q2, hq2, hq2e⟩ := hm2 s2 hc2
        refine ⟨?_, ?_, ?_, ?_⟩
        · intro s hs
          rw [Option.some_inj] at hs
          subst hs
          exact ⟨s2, rfl, hs21⟩
        · intro s hs
          rw [Option.some_inj] at hs
          subst hs
          exact ⟨q1, List.mem_append_left _ hq1, hq1e⟩
        · intro s hs
          rw [Option.some_inj] at hs
          subst hs
          exact ⟨q2, List.mem_append_left _ hq2, hq2e⟩
        · intro T hT
          have hold := hmain T (hpre' T hT)
          rw [hc1, hc2] at hold
          exact hold
      | none =>
        cases hc2 : stLo.2 with
        | some s2 =>
          dsimp only [monoInv, Option.getD_some, Option.getD_none]
          obtain ⟨q2, hq2, hq2e⟩ := hm2 s2 hc2
          have hs2t : s2 ≤ t := by
            rw [← hq2e]
            exact hpre_le_t q2 hq2
          refine ⟨?_, ?_, ?_, ?_⟩
          · intro s hs
            rw [Option.some_inj] at hs
            subst hs
            exact ⟨s2, rfl, hs2t⟩
          · intro s hs
            rw [Option.some_inj] at hs
            subst hs
            exact ⟨(t, x), List.mem_append_right _ (by simp), rfl⟩
          · intro s hs
            rw [Option.some_inj] at hs
            subst hs
            exact ⟨q2, List.mem_append_left _ hq2, hq2e⟩
          · intro T hT
            have htT := ht_le T hT
            have holdt := hmain t hpre_le_t
            rw [hc1, hc2, pot_none] at holdt
            have holdT := hmain T (hpre' T hT)
            rw [hc1, hc2, pot_none] at holdT
            have hple := pot_le_sub minD s2 t hs2t
            by_cases hmt : minD ≤ T - t
            · rw [pot_some, if_pos hmt, pot_some, if_pos (by linarith)]
              linarith
            · rw [pot_some, if_neg hmt]
              linarith
        | none =>
          dsimp only [monoInv, Option.getD_none]
          refine ⟨?_, ?_, ?_, ?_⟩
          · intro s hs
            rw [Option.some_inj] at hs
            subst hs
            exact ⟨t, rfl, le_refl t⟩
          · intro s hs
            rw [Option.some_inj] at hs
            subst hs
            exact ⟨(t, x), List.mem_append_right _ (by simp), rfl⟩
          · intro s hs
            rw [Option.some_inj] at hs
            subst hs
            exact ⟨(t, x), List.mem_append_right _ (by simp), rfl⟩
          · intro T hT
            have hold := hmain T (hpre' T hT)
            rw [hc1, hc2, pot_none] at hold
            linarith
    · -- high threshold inactive, low threshold active
      cases hc1 : stHi.2 with
      | some s1 =>
        obtain ⟨s2, hc2, hs21⟩ := halign s1 hc1
        rw [runStep_inactive_some thrHi minD t x s1 stHi hx1 hc1,
          runStep_active thrLo minD t x stLo hx2, hc2]
        dsimp only [monoInv, Option.getD_some]
        obtain ⟨q1, hq1, hq1e⟩ := hm1 s1 hc1
        obtain ⟨q2, hq2, hq2e⟩ := hm2 s2 hc2
        have hs1t : s1 ≤ t := by
          rw [← hq1e]
          exact hpre_le_t q1 hq1
        refine ⟨by simp, by simp, ?_, ?_⟩
        · intro s hs
          rw [Option.some_inj] at hs
          subst hs
          exact ⟨q2, List.mem_append_left _ hq2, hq2e⟩
        · intro T hT
          have htT := ht_le T hT
          have hDeq : totalDuration
              (if minD ≤ t - s1 then stHi.1 ++ [(s1, t)] else stHi.1) =
              totalDuration stHi.1 + pot minD (some s1) t := by
            rw [pot_some]
            by_cases hd : minD ≤ t - s1
            · rw [if_pos hd, if_pos hd, totalDuration_append]
            · rw [if_neg hd, if_neg hd]
              ring
          have hold := hmain T (hpre' T hT)
          rw [hc1, hc2] at hold
          have hpmono := pot_mono_T minD s1 t T hs1t htT
          rw [hDeq, pot_none]
          linarith
      | none =>
        rw [runStep_inactive_none thrHi minD t x stHi hx1 hc1,
          runStep_active thrLo minD t x stLo hx2]
        cases hc2 : stLo.2 with
        | some s2 =>
          dsimp only [monoInv, Option.getD_some]
          obtain ⟨q2, hq2, hq2e⟩ := hm2 s2 hc2
          refine ⟨by simp, by simp, ?_, ?_⟩
          · intro s hs
            rw [Option.some_inj] at hs
            subst hs
            exact ⟨q2, List.mem_append_left _ hq2, hq2e⟩
          · intro T hT
            have hold := hmain T (hpre' T hT)
            rw [hc1, hc2, pot_none] at hold
            rw [pot_none]
            linarith
        | none =>
          dsimp only [monoInv, Option.getD_none]
          refine ⟨by simp, by simp, ?_, ?_⟩
          · intro s hs
            rw [Option.some_inj] at hs
            subst hs
            exact ⟨(t, x), List.mem_append_right _ (by simp), rfl⟩
          · intro T hT
            have htT := ht_le T hT
            have hold := hmain T (hpre' T hT)
            rw [hc1, hc2, pot_none] at hold
            have hpn := pot_nonneg minD t T htT
            rw [pot_none]
            linarith
  · -- both thresholds inactive
    have hx1 : ¬ thrHi < x := fun hcon => hx2 (lt_of_le_of_lt hth hcon)
    cases hc1 : stHi.2 with
    | some s1 =>
      obtain ⟨s2, hc2, hs21⟩ := halign s1 hc1
      rw [runStep_inactive_some thrHi minD t x s1 stHi hx1 hc1,
        runStep_inactive_some thrLo minD t x s2 stLo hx2 hc2]
      dsimp only [monoInv]
      obtain ⟨q1, hq1, hq1e⟩ := hm1 s1 hc1
      obtain ⟨q2, hq2, hq2e⟩ := hm2 s2 hc2
      have hs1t : s1 ≤ t := by
        rw [← hq1e]
        exact hpre_le_t q1 hq1
      have hs2t : s2 ≤ t := by
        rw [← hq2e]
        exact hpre_le_t q2 hq2
      refine ⟨by simp, by simp, by simp, ?_⟩
      intro T hT
      have hDeq1 : totalDuration
          (if minD ≤ t - s1 then stHi.1 ++ [(s1, t)] else stHi.1) =
          totalDuration stHi.1 + pot minD (some s1) t := by
        rw [pot_some]
        by_cases hd : minD ≤ t - s1
        · rw [if_pos hd, if_pos hd, totalDuration_append]
        · rw [if_neg hd, if_neg hd]
          ring
      have hDeq2 : totalDuration
          (if minD ≤ t - s2 then stLo.1 ++ [(s2, t)] else stLo.1) =
          totalDuration stLo.1 + pot minD (some s2) t := by
        rw [pot_some]
        by_cases hd : minD ≤ t - s2
        · rw [if_pos hd, if_pos hd, totalDuration_append]
        · rw [if_neg hd, if_neg hd]
          ring
      have hold := hmain t hpre_le_t
      rw [hc1, hc2] at hold
      rw [hDeq1, hDeq2, pot_none]
      linarith
    | none =>
      rw [runStep_inactive_none thrHi minD t x stHi hx1 hc1]
      cases hc2 : stLo.2 with
      | some s2 =>
        rw [runStep_inactive_some thrLo minD t x s2 stLo hx2 hc2]
        dsimp only [monoInv]
        obtain ⟨q2, hq2, hq2e⟩ := hm2 s2 hc2
        have hs2t : s2 ≤ t := by
          rw [← hq2e]
          exact hpre_le_t q2 hq2
        refine ⟨by simp, by simp, by simp, ?_⟩
        intro T hT
        have hDeq2 : totalDuration
            (if minD ≤ t - s2 then stLo.1 ++ [(s2, t)] else stLo.1) =
            totalDuration stLo.1 + pot minD (some s2) t := by
          rw [pot_some]
          by_cases hd : minD ≤ t - s2
          · rw [if_pos hd, if_pos hd, totalDuration_append]
          · rw [if_neg hd, if_neg hd]
            ring
        have hold := hmain t hpre_le_t
        rw [hc1, hc2, pot_none] at hold
        rw [hDeq2, pot_none]
        linarith
      | none =>
        rw [runStep_inactive_none thrLo minD t x stLo hx2 hc2]
        dsimp only [monoInv]
        refine ⟨by simp, by simp, by simp, ?_⟩
        intro T hT
        have hold := hmain T (hpre' T hT)
        rw [hc1, hc2, pot_none] at hold
        rw [pot_none]
        linarith

theorem runScan_monoInv (thrHi thrLo minD : ℚ) (hth : thrLo ≤ thrHi)
    (samples : List (ℚ × ℚ))
    (hsorted : List.Pairwise (fun a b => a.1 < b.1) samples) :
    monoInv minD samples (runScan thrHi minD samples)
      (runScan thrLo minD samples) := by
  have hfold := fold_inv_pre
    (fun st p => (runStep thrHi minD st.1 p, runStep thrLo minD st.2 p))
    (fun pre st => monoInv minD pre st.1 st.2)
    (fun pre t x st hlt hinv =>
      monoInv_step thrHi thrLo minD hth pre t x st.1 st.2 hlt hinv)
    samples [] (([], none), ([], none)) (by simpa using hsorted)
    ⟨by simp, by simp, by simp, fun T _ => le_refl _⟩
  rw [foldl_pair (runStep thrHi minD) (runStep thrLo minD) samples ([], none)
    ([], none)] at hfold
  simpa using hfold

theorem segment_totalDuration_anti_threshold (thrHi thrLo minD D : ℚ)
    (hth : thrLo ≤ thrHi) (samples : List (ℚ × ℚ))
    (hsorted : List.Pairwise (fun a b => a.1 < b.1) samples)
    (hub : ∀ q ∈ samples, q.1 ≤ D) :
    totalDuration (segmentWithTail thrHi minD D samples) ≤
      totalDuration (segmentWithTail thrLo minD D samples) := by
  obtain ⟨_, _, _, hmain⟩ := runScan_monoInv thrHi thrLo minD hth samples hsorted
  rw [totalDuration_segmentWithTail, totalDuration_segmentWithTail]
  exact hmain D hub

theorem sorted_getD_mono (a : List ℚ) (ha : List.Sorted (· ≤ ·) a) (d1 d2 : ℚ)
    (i j : ℕ) (hij : i ≤ j) (hj : j < a.length) : a.getD i d1 ≤ a.getD j d2 := by
  have hi : i < a.length := lt_of_le_of_lt hij hj
  rw [List.getD_eq_getElem a d1 hi, List.getD_eq_getElem a d2 hj]
  have hfin : (⟨i, hi⟩ : Fin a.length) ≤ ⟨j, hj⟩ := hij
  have h := ha.rel_get_of_le hfin
  simpa [List.get_eq_getElem] using h

theorem interpAt_mono (a : List ℚ) (ha : List.Sorted (· ≤ ·) a) (h1 h2 : ℚ)
    (h0 : 0 ≤ h1) (h12 : h1 ≤ h2) (hn : h2 ≤ (a.length : ℚ) - 1) :
    interpAt a h1 ≤ interpAt a h2 := by
  have h02 : 0 ≤ h2 := le_trans h0 h12
  have hf1 : (0 : ℤ) ≤ ⌊h1⌋ := Int.floor_nonneg.mpr h0
  have hf2 : (0 : ℤ) ≤ ⌊h2⌋ := Int.floor_nonneg.mpr h02
  have hc1 : ((⌊h1⌋.toNat : ℕ) : ℚ) = ((⌊h1⌋ : ℤ) : ℚ) := by
    exact_mod_cast Int.toNat_of_nonneg hf1
  have hc2 : ((⌊h2⌋.toNat : ℕ) : ℚ) = ((⌊h2⌋ : ℤ) : ℚ) := by
    exact_mod_cast Int.toNat_of_nonneg hf2
  have hle1 : ((⌊h1⌋.toNat : ℕ) : ℚ) ≤ h1 := by
    rw [hc1]
    exact Int.floor_le h1
  have hlt1 : h1 < ((⌊h1⌋.toNat : ℕ) : ℚ) + 1 := by
    rw [hc1]
    exact Int.lt_floor_add_one h1
  have hle2 : ((⌊h2⌋.toNat : ℕ) : ℚ) ≤ h2 := by
    rw [hc2]
    exact Int.floor_le h2
  have hii : ⌊h1⌋.toNat ≤ ⌊h2⌋.toNat := Int.toNat_le_toNat (Int.floor_le_floor h12)
  have hi2len : ⌊h2⌋.toNat + 1 ≤ a.length := by
    have hq : ((⌊h2⌋.toNat : ℕ) : ℚ) + 1 ≤ (a.length : ℚ) := by linarith
    exact_mod_cast hq
  have hi2lt : ⌊h2⌋.toNat < a.length := Nat.lt_of_succ_le hi2len
  have hdiff2 : 0 ≤ a.getD (⌊h2⌋.toNat + 1) (a.getD ⌊h2⌋.toNat 0) -
      a.getD ⌊h2⌋.toNat 0 := by
    by_cases hs : ⌊h2⌋.toNat + 1 < a.length
    · have hm := sorted_getD_mono a ha 0 (a.getD ⌊h2⌋.toNat 0) ⌊h2⌋.toNat
        (⌊h2⌋.toNat + 1) (Nat.le_succ _) hs
      linarith
    · rw [List.getD_eq_default a _ (le_of_not_lt hs)]
      linarith
  unfold interpAt
  rcases eq_or_lt_of_le hii with heq | hlt
  · rw [← heq] at hdiff2 ⊢
    have hfrac : h1 - ((⌊h1⌋.toNat : ℕ) : ℚ) ≤ h2 - ((⌊h1⌋.toNat : ℕ) : ℚ) := by
      linarith
    have hmul := mul_le_mul_of_nonneg_right hfrac hdiff2
    linarith
  · have hsucc_le : ⌊h1⌋.toNat + 1 ≤ ⌊h2⌋.toNat := Nat.succ_le_of_lt hlt
    have hsucc_lt : ⌊h1⌋.toNat + 1 < a.length := lt_of_le_of_lt hsucc_le hi2lt
    have hE : a.getD (⌊h1⌋.toNat + 1) (a.getD ⌊h1⌋.toNat 0) =
        a.getD (⌊h1⌋.toNat + 1) (0 : ℚ) := by
      rw [List.getD_eq_getElem a _ hsucc_lt, List.getD_eq_getElem a _ hsucc_lt]
    have hlo_le : a.getD ⌊h1⌋.toNat 0 ≤ a.getD (⌊h1⌋.toNat + 1) (0 : ℚ) :=
      sorted_getD_mono a ha 0 0 _ _ (Nat.le_succ _) hsucc_lt
    have hfrac1_le_one : h1 - ((⌊h1⌋.toNat : ℕ) : ℚ) ≤ 1 := by linarith
    have hstepA : a.getD ⌊h1⌋.toNat 0 +
        (h1 - ((⌊h1⌋.toNat : ℕ) : ℚ)) *
          (a.getD (⌊h1⌋.toNat + 1) (a.getD ⌊h1⌋.toNat 0) -
            a.getD ⌊h1⌋.toNat 0) ≤
        a.getD (⌊h1⌋.toNat + 1) (0 : ℚ) := by
      rw [hE]
      have hmul := mul_le_mul_of_nonneg_right hfrac1_le_one
        (by linarith : (0 : ℚ) ≤ a.getD (⌊h1⌋.toNat + 1) (0 : ℚ) -
          a.getD ⌊h1⌋.toNat 0)
      linarith
    have hstepB : a.getD (⌊h1⌋.toNat + 1) (0 : ℚ) ≤ a.getD ⌊h2⌋.toNat (0 : ℚ) :=
      sorted_getD_mono a ha 0 0 _ _ hsucc_le hi2lt
    have hstepC : a.getD ⌊h2⌋.toNat (0 : ℚ) ≤ a.getD ⌊h2⌋.toNat 0 +
        (h2 - ((⌊h2⌋.toNat : ℕ) : ℚ)) *
          (a.getD (⌊h2⌋.toNat + 1) (a.getD ⌊h2⌋.toNat 0) -
            a.getD ⌊h2⌋.toNat 0) := by
      have hmul := mul_nonneg (by linarith : (0 : ℚ) ≤ h2 - ((⌊h2⌋.toNat : ℕ) : ℚ))
        hdiff2
      linarith
    linarith

theorem percentileNP_mono (xs : List ℚ) (q1 q2 : ℚ) (h0 : 0 ≤ q1)
    (h12 : q1 ≤ q2) (h100 : q2 ≤ 100) :
    percentileNP xs q1 ≤ percentileNP xs q2 := by
  unfold percentileNP
  by_cases hnil : xs.insertionSort (· ≤ ·) = []
  · rw [if_pos hnil, if_pos hnil]
  · rw [if_neg hnil, if_neg hnil]
    have hlen : 1 ≤ (xs.insertionSort (· ≤ ·)).length :=
      List.length_pos.mpr hnil
    have hlenq : (1 : ℚ) ≤ ((xs.insertionSort (· ≤ ·)).length : ℚ) := by
      exact_mod_cast hlen
    apply interpAt_mono _ (List.sorted_insertionSort _ xs)
    · exact mul_nonneg (by linarith) (by linarith)
    · exact mul_le_mul_of_nonneg_right (by linarith) (by linarith)
    · have hq : q2 / 100 ≤ 1 := by linarith
      have hmul := mul_le_mul_of_nonneg_right hq
        (by linarith : (0 : ℚ) ≤ ((xs.insertionSort (· ≤ ·)).length : ℚ) - 1)
      linarith

/-- **C8** (counterexample): over the fixed score distribution `scoresC8`
(total duration 10), raising `top_percent` from 60 to 70 merges the two
qualifying action runs into one: the number of resulting intervals drops
from 2 to 1, so increasing `top_percent` can decrease the interval count
(their total duration still grows, from 6 to 7). -/
theorem c8_counterexample :
    (getBestMoments 10 scoresC8 ((100 - 60) / 100)).length = 2 ∧
    (getBestMoments 10 scoresC8 ((100 - 70) / 100)).length = 1 ∧
    totalDuration (getBestMoments 10 scoresC8 ((100 - 60) / 100)) = 6 ∧
    totalDuration (getBestMoments 10 scoresC8 ((100 - 70) / 100)) = 7 := by
  refine ⟨?_, ?_, ?_, ?_⟩ <;>
    norm_num [scoresC8, getBestMoments, segmentWithTail, runScan, runStep,
      percentileNP, interpAt, List.insertionSort, List.orderedInsert,
      Int.toNat, List.getD, List.cons_ne_nil, MIN_ACTION_CLIP_DURATION,
      totalDuration]

/-- **C8** (amended): for a fixed action-score distribution (strictly
increasing timestamps all within the clip duration), increasing the
`top_percent` parameter never decreases the **total duration** of the
resulting action intervals; the **number** of intervals, however, can
decrease, because lowering the derived percentile threshold can merge
adjacent runs (see the counterexample). -/
theorem c8_amended_total_duration_monotone (dur : ℚ) (scores : List (ℚ × ℚ))
    (p1 p2 : ℚ) (h0 : 0 ≤ p1) (h12 : p1 ≤ p2) (h100 : p2 ≤ 100)
    (hsorted : List.Pairwise (fun a b => a.1 < b.1) scores)
    (hub : ∀ q ∈ scores, q.1 ≤ dur) :
    totalDuration (getBestMoments dur scores ((100 - p1) / 100)) ≤
      totalDuration (getBestMoments dur scores ((100 - p2) / 100)) := by
  unfold getBestMoments
  by_cases hnil : scores = []
  · rw [if_pos hnil, if_pos hnil]
  · rw [if_neg hnil, if_neg hnil]
    have hq1 : (100 - p1) / 100 * 100 = 100 - p1 := by ring
    have hq2 : (100 - p2) / 100 * 100 = 100 - p2 := by ring
    rw [hq1, hq2]
    exact segment_totalDuration_anti_threshold
      (percentileNP (scores.map Prod.snd) (100 - p1))
      (percentileNP (scores.map Prod.snd) (100 - p2))
      MIN_ACTION_CLIP_DURATION dur
      (percentileNP_mono (scores.map Prod.snd) (100 - p2) (100 - p1)
        (by linarith) (by linarith) (by linarith))
      scores hsorted hub

/-- Witness for the amended C8 theorem on the counterexample distribution:
going from `top_percent = 60` to `top_percent = 70` does not decrease the
total duration. -/
theorem c8_amended_total_duration_monotone_witness :
    totalDuration (getBestMoments 10 scoresC8 ((100 - 60) / 100)) ≤
      totalDuration (getBestMoments 10 scoresC8 ((100 - 70) / 100)) :=
  c8_amended_total_duration_monotone 10 scoresC8 60 70 (by norm_num)
    (by norm_num) (by norm_num) (by decide) (by decide)

/-- **C9**: when the input's frame rate is missing or zero, the Stability
Filter Stage skips stability analysis (its result does not depend on the
sharpness samples at all) and yields exactly one steady interval spanning
the whole clip; in a fault-free run the pipeline then continues past the
stage — the steady concatenation is created rather than the pipeline
aborting there. -/
theorem c9_missing_fps_whole_clip_steady (env : PipelineEnv)
    (hf : env.fault = none) (h : env.fps = none ∨ env.fps = some 0) :
    steadyOf env = [(0, env.clipDuration)] ∧
    (∀ samples2 : List (ℚ × ℚ),
      getSteadyClips env.clipDuration env.fps env.blurThreshold samples2 =
        [(0, env.clipDuration)]) ∧
    Res.steadyVideo ∈ (generateHighlightVideo env).created := by
  have hall : ∀ samples2 : List (ℚ × ℚ),
      getSteadyClips env.clipDuration env.fps env.blurThreshold samples2 =
        [(0, env.clipDuration)] := by
    intro samples2
    rcases h with h | h <;> (rw [h, getSteadyClips.eq_def]; try simp)
  have hsteady : steadyOf env = [(0, env.clipDuration)] := hall _
  refine ⟨hsteady, hall, ?_⟩
  unfold generateHighlightVideo
  split_ifs with h1 h2 h3 h4 h5 h6 h7 h8
  · rw [hf] at h1
    simp at h1
  · rw [hf] at h2
    simp at h2
  · rw [hsteady] at h3
    simp at h3
  · rw [hf] at h4
    simp at h4
  · rw [hf] at h5
    simp at h5
  · simp
  · simp
  · rw [hf] at h8
    simp at h8
  · simp

/-- Witness for the C9 theorem on a source with no reported frame rate. -/
theorem c9_missing_fps_whole_clip_steady_witness :
    steadyOf envFpsNone = [(0, envFpsNone.clipDuration)] ∧
    (∀ samples2 : List (ℚ × ℚ),
      getSteadyClips envFpsNone.clipDuration envFpsNone.fps
        envFpsNone.blurThreshold samples2 = [(0, envFpsNone.clipDuration)]) ∧
    Res.steadyVideo ∈ (generateHighlightVideo envFpsNone).created :=
  c9_missing_fps_whole_clip_steady envFpsNone rfl (Or.inl rfl)

theorem totalDuration_pos_of_min (l : List (ℚ × ℚ)) (minD : ℚ) (hmin : 0 < minD)
    (hne : l ≠ []) (hall : ∀ p ∈ l, minD ≤ p.2 - p.1) : 0 < totalDuration l := by
  cases l with
  | nil => exact absurd rfl hne
  | cons a t =>
    have ha := hall a (by simp)
    have ht : 0 ≤ (t.map fun p => p.2 - p.1).sum := by
      apply List.sum_nonneg
      intro x hx
      obtain ⟨p, hp, rfl⟩ := List.mem_map.mp hx
      have := hall p (by simp [hp])
      linarith
    have hexp : totalDuration (a :: t) =
        (a.2 - a.1) + (t.map fun p => p.2 - p.1).sum := by
      simp [totalDuration]
    rw [hexp]
    linarith


theorem getBestMoments_duration (dur pt : ℚ) (scores : List (ℚ × ℚ)) :
    ∀ p ∈ getBestMoments dur scores pt, MIN_ACTION_CLIP_DURATION ≤ p.2 - p.1 := by
  intro p hp
  unfold getBestMoments at hp
  by_cases hnil : scores = []
  · rw [if_pos hnil] at hp
    simp at hp
  · rw [if_neg hnil] at hp
    exact segmentWithTail_duration _ _ _ _ p hp

/-- **C4**: `generate_highlight_video` returns `True` only when at least
one interval survived both filtering stages (`best_clips` nonempty) and
the written output is that nonempty interval list with positive total
duration; and in any fault-free run in which the steady stage yields no
interval, the action stage yields no scored sample, or no qualifying
best-moment interval exists, it returns `False` and writes no output. -/
theorem c4_success_requires_intervals_and_write (env : PipelineEnv) :
    ((generateHighlightVideo env).result = .returned true →
      bestOf env ≠ [] ∧
      (generateHighlightVideo env).written = some (bestOf env) ∧
      0 < totalDuration (bestOf env)) ∧
    (env.fault = none →
      (steadyOf env = [] ∨ scoresOf env = [] ∨ bestOf env = []) →
      (generateHighlightVideo env).result = .returned false ∧
      (generateHighlightVideo env).written = none) := by
  constructor
  · intro hres
    unfold generateHighlightVideo at hres ⊢
    split_ifs at hres ⊢ with h1 h2 h3 h4 h5 h6 h7 h8
    all_goals try (exfalso; simp at hres; done)
    refine ⟨h7, rfl, ?_⟩
    apply totalDuration_pos_of_min (bestOf env) MIN_ACTION_CLIP_DURATION
      (by norm_num [MIN_ACTION_CLIP_DURATION]) h7
    exact getBestMoments_duration _ _ _
  · intro hfault hdisj
    unfold generateHighlightVideo
    split_ifs with h1 h2 h3 h4 h5 h6 h7 h8
    · rw [hfault] at h1
      simp at h1
    · rw [hfault] at h2
      simp at h2
    · exact ⟨rfl, rfl⟩
    · rw [hfault] at h4
      simp at h4
    · rw [hfault] at h5
      simp at h5
    · exact ⟨rfl, rfl⟩
    · exact ⟨rfl, rfl⟩
    · rw [hfault] at h8
      simp at h8
    · rcases hdisj with hd | hd | hd
      · exact absurd hd h3
      · exact absurd hd h6
      · exact absurd hd h7

/-- Witness for the C4 theorem: a fully successful run (`envSuccess`) for
the success direction, and a fault-free run with no action scores
(`envNoScores`) for the failure direction. -/
theorem c4_success_requires_intervals_and_write_witness :
    (bestOf envSuccess ≠ [] ∧
      (generateHighlightVideo envSuccess).written = some (bestOf envSuccess) ∧
      0 < totalDuration (bestOf envSuccess)) ∧
    ((generateHighlightVideo envNoScores).result = .returned false ∧
      (generateHighlightVideo envNoScores).written = none) :=
  ⟨(c4_success_requires_intervals_and_write envSuccess).1 (by
      norm_num [generateHighlightVideo, envSuccess, steadyOf, scoresOf, bestOf,
        getSteadyClips, getBestMoments, segmentNoTail, segmentWithTail, runScan,
        runStep, percentileNP, interpAt, analyzeVideoForAction, matMean,
        List.insertionSort, List.orderedInsert, Int.toNat, List.getD,
        List.cons_ne_nil, MIN_CLIP_DURATION_STEADY, MIN_ACTION_CLIP_DURATION,
        totalDuration, List.enum, List.enumFrom]
      rfl),
   (c4_success_requires_intervals_and_write envNoScores).2 rfl
     (Or.inr (Or.inl rfl))⟩

/-- **C3** (counterexample): on `envFaultAction` the steady stage succeeds
(one steady sub-clip and the steady concatenation are created), then the
unguarded action-analysis call raises — the fault propagates raw to the
caller instead of a boolean, and none of the created clip resources is
released. -/
theorem c3_counterexample :
    (generateHighlightVideo envFaultAction).result = .raised ∧
    Res.original ∈ (generateHighlightVideo envFaultAction).created ∧
    Res.steadyVideo ∈ (generateHighlightVideo envFaultAction).created ∧
    (generateHighlightVideo envFaultAction).closed = [] := by
  refine ⟨?_, ?_, ?_, ?_⟩ <;>
    · norm_num [generateHighlightVideo, envFaultAction, steadyOf, scoresOf,
        getSteadyClips, segmentNoTail, runScan, runStep,
        MIN_CLIP_DURATION_STEADY]
      decide

/-- **C3** (amended): `generate_highlight_video` guards only the initial
`VideoFileClip` open with try/except.  On every fault-free run (and on a
failed open) it returns a definite boolean; but when any collaborator
raises after the open, the fault propagates raw to the caller and no
resource release runs at all; moreover even on the fault-free
empty-action-scores exit the steady sub-clips are not released. -/
theorem c3_amended_release_only_on_nonexceptional_paths (env : PipelineEnv) :
    ((generateHighlightVideo env).result = .raised →
      env.fault ≠ none ∧ (generateHighlightVideo env).closed = []) ∧
    (env.fault = none →
      ∃ b, (generateHighlightVideo env).result = .returned b) ∧
    (env.fault = none → scoresOf env = [] → steadyOf env ≠ [] →
      Res.steadySub 0 ∈ (generateHighlightVideo env).created ∧
      Res.steadySub 0 ∉ (generateHighlightVideo env).closed) := by
  refine ⟨?_, ?_, ?_⟩
  · intro hres
    unfold generateHighlightVideo at hres ⊢
    split_ifs at hres ⊢ with h1 h2 h3 h4 h5 h6 h7 h8
    · exact ⟨by rw [h2]; simp, rfl⟩
    · exact ⟨by rw [h4]; simp, rfl⟩
    · exact ⟨by rw [h5]; simp, rfl⟩
    · exact ⟨by rw [h8]; simp, rfl⟩
  · intro hfault
    by_cases h3 : steadyOf env = []
    · exact ⟨false, by simp [generateHighlightVideo, hfault, h3]⟩
    · by_cases h6 : scoresOf env = []
      · exact ⟨false, by simp [generateHighlightVideo, hfault, h3, h6]⟩
      · by_cases h7 : bestOf env = []
        · exact ⟨false, by simp [generateHighlightVideo, hfault, h3, h6, h7]⟩
        · exact ⟨true, by simp [generateHighlightVideo, hfault, h3, h6, h7]⟩
  · intro hfault hscores hsteady
    have hgen : generateHighlightVideo env =
        { result := .returned false,
          created := .original ::
            (List.range (steadyOf env).length).map Res.steadySub ++
            [.steadyVideo],
          closed := [.steadyVideo, .original], written := none } := by
      simp [generateHighlightVideo, hfault, hscores, hsteady]
    have hmem : Res.steadySub 0 ∈
        (List.range (steadyOf env).length).map Res.steadySub :=
      List.mem_map.mpr ⟨0, List.mem_range.mpr (List.length_pos.mpr hsteady), rfl⟩
    rw [hgen]
    constructor
    · exact List.mem_cons_of_mem _ (List.mem_append_left _ hmem)
    · simp

/-- Witness for the amended C3 theorem: the action-stage fault run
(`envFaultAction`) for the raw-propagation part, and the fault-free
no-action-scores run (`envNoScores`) for the boolean-return and
steady-sub-clip-leak parts. -/
theorem c3_amended_release_only_on_nonexceptional_paths_witness :
    (envFaultAction.fault ≠ none ∧
      (generateHighlightVideo envFaultAction).closed = []) ∧
    (∃ b, (generateHighlightVideo envNoScores).result = .returned b) ∧
    (Res.steadySub 0 ∈ (generateHighlightVideo envNoScores).created ∧
      Res.steadySub 0 ∉ (generateHighlightVideo envNoScores).closed) :=
  ⟨(c3_amended_release_only_on_nonexceptional_paths envFaultAction).1 (by
      norm_num [generateHighlightVideo, envFaultAction, steadyOf, scoresOf,
        getSteadyClips, segmentNoTail, runScan, runStep,
        MIN_CLIP_DURATION_STEADY]
      decide),
   (c3_amended_release_only_on_nonexceptional_paths envNoScores).2.1 rfl,
   (c3_amended_release_only_on_nonexceptional_paths envNoScores).2.2 rfl rfl (by
      norm_num [steadyOf, envNoScores, getSteadyClips, segmentNoTail, runScan,
        runStep, MIN_CLIP_DURATION_STEADY, List.cons_ne_nil])⟩

/-- **C2** (counterexample): on the magnitude field `fieldC2` the
pipeline's Action Scoring Stage (`_analyze_video_for_action`) scores the
transition with the whole-frame mean, 4, while the ROI-percentile policy
(95th percentile over the central 80% crop, as in
tests/action_finder.py) would give 0 — so the pipeline does not use the
ROI-percentile policy. -/
theorem c2_counterexample :
    analyzeVideoForAction 1 [fieldC2] = [(1, 4)] ∧
    roiPercentileScore fieldC2 = 0 ∧ (4 : ℚ) ≠ 0 := by
  refine ⟨?_, ?_, by norm_num⟩
  · norm_num [analyzeVideoForAction, matMean, fieldC2, List.enum, List.enumFrom]
  · norm_num [roiPercentileScore, cropCentral, fieldC2, percentileNP, interpAt,
      List.insertionSort, List.orderedInsert, Int.toNat, List.getD,
      List.cons_ne_nil]

/-- **C2** (amended): for every frame pair processed by the pipeline's
Action Scoring Stage, the motion score is the whole-frame mean of the
optical-flow magnitudes (`np.mean(magnitude)`), at timestamp `(i+1)/fps`;
the ROI-percentile policy appears only in the standalone
tests/action_finder.py script, not in the pipeline. -/
theorem c2_amended_action_score_is_whole_frame_mean (fps : ℚ)
    (fields : List (List (List ℚ))) (i : ℕ) (h : i < fields.length) :
    (analyzeVideoForAction fps fields).getD i (0, 0) =
      (((i : ℚ) + 1) / fps, matMean (fields.getD i [])) := by
  unfold analyzeVideoForAction
  rw [List.getD_eq_getElem _ _ (by simpa using h), List.getD_eq_getElem _ _ h]
  simp [List.getElem_map, List.getElem_enum]

/-- Witness for the amended C2 theorem at the concrete field `fieldC2`. -/
theorem c2_amended_action_score_is_whole_frame_mean_witness :
    (analyzeVideoForAction 1 [fieldC2]).getD 0 (0, 0) =
      (((0 : ℚ) + 1) / 1, matMean ([fieldC2].getD 0 [])) :=
  c2_amended_action_score_is_whole_frame_mean 1 [fieldC2] 0 (by decide)
